import Mathlib

/-!
Verification of the hierarchical sort-and-bracket layout engine and the
auxiliary plotting helpers of `graspologic/plot/plot.py`.

The embedding is a shallow one:

* a graph (`n × n` numeric matrix) is a function `Fin n → Fin n → W` for a
  linear ordered commutative ring `W` (numpy float arrays are modelled by an
  arbitrary such ring so that concrete witnesses can be evaluated over `ℤ`);
* label vectors are functions `Fin n → α` (for `_sort_inds`) or plain lists
  (for the list-shaped helpers `_unique_like`, `_get_freqs`, `_distplot`),
  with `α` any linearly ordered type, mirroring numpy label arrays;
* pandas' `sort_values(..., kind="mergesort")` is a stable sort by the listed
  columns; it is modelled by `List.insertionSort` (also a stable sort) on the
  lexicographic key built from the data-frame columns.  The characterization
  theorem for claim C1 shows the output is *the* stable sort of the indices:
  sorted strictly by (key, original index), which pins the output uniquely,
  independent of which stable algorithm is used;
* external collaborators (numpy's `log`/`log10`, `pass_to_ranks` from
  `graspologic.utils`, sklearn's `Binarizer`) are abstract parameters /
  entry-wise functions, exactly as the plot module consumes them;
* python exceptions (`ValueError`) are modelled with `Except String`;
* numpy's `.max()` on an empty array raises, hence `max_edgesum` (and with it
  `_sort_inds`) carries a `[NeZero n]` assumption: the public entry points
  reject empty matrices (`check_array`), so `n ≥ 1` always holds there.
-/

namespace Graspologic

variable {W : Type} [LinearOrderedCommRing W]
variable {α : Type} [LinearOrder α]
variable {n : ℕ}

/-- A square numeric matrix (the graph). -/
abbrev Mat (W : Type) (n : ℕ) : Type := Fin n → Fin n → W

/-- Row sums: `graph.sum(axis=1)`. -/
def rowSum (g : Mat W n) (i : Fin n) : W :=
  ((List.finRange n).map (fun j => g i j)).sum

/-- Column sums: `graph.sum(axis=0)`. -/
def colSum (g : Mat W n) (i : Fin n) : W :=
  ((List.finRange n).map (fun j => g j i)).sum

/-- Per-node edge sums: `node_edgesums = graph.sum(axis=1) + graph.sum(axis=0)`. -/
def node_edgesums (g : Mat W n) (i : Fin n) : W :=
  rowSum g i + colSum g i

/-- The value `node_edgesums.max()`.  numpy raises on an empty array, whence
the `NeZero n` hypothesis; for `n ≥ 1` the `getD` default is never used. -/
def max_edgesum [NeZero n] (g : Mat W n) : W :=
  (((List.finRange n).map (node_edgesums g)).max?).getD 0

/-- Source `_get_freq_vec(vals)[i]`: the number of occurrences of node `i`'s label
(`np.unique(..., return_inverse=True, return_counts=True); counts[inv]`). -/
def _get_freq_vec (lab : Fin n → α) (i : Fin n) : ℕ :=
  ((List.finRange n).map lab).count (lab i)

/-- The sort key of a node when `sort_nodes=False`: the data-frame columns
`(outer_counts, outer_labels, inner_counts, inner_labels)` compared
lexicographically, where `outer_counts = len(outer_labels) - outer_label_counts`
(so that larger groups sort first) and similarly for `inner_counts`. -/
def key4 (il ol : Fin n → α) (i : Fin n) : Lex (ℕ × Lex (α × Lex (ℕ × α))) :=
  toLex (n - _get_freq_vec ol i,
    toLex (ol i, toLex (n - _get_freq_vec il i, il i)))

/-- The sort key of a node when `sort_nodes=True`: additionally the column
`node_edgesums = node_edgesums.max() - node_edgesums` as the last component. -/
def key5 [NeZero n] (g : Mat W n) (il ol : Fin n → α) (i : Fin n) :
    Lex (ℕ × Lex (α × Lex (ℕ × Lex (α × W)))) :=
  toLex (n - _get_freq_vec ol i,
    toLex (ol i, toLex (n - _get_freq_vec il i,
      toLex (il i, max_edgesum g - node_edgesums g i))))

/-- Source `_sort_inds(graph, inner_labels, outer_labels, sort_nodes)`: the stable
(`kind="mergesort"`) sort of the data-frame index `0..n-1` by the columns
`[outer_counts, outer_labels, inner_counts, inner_labels]`, plus
`node_edgesums` last when `sort_nodes` is set.  The stable sort is modelled by
`List.insertionSort`; stability and extensional behaviour are pinned by the
characterization theorem for claim C1. -/
def _sort_inds [NeZero n] (g : Mat W n) (il ol : Fin n → α) (sort_nodes : Bool) :
    List (Fin n) :=
  if sort_nodes then
    (List.finRange n).insertionSort (fun i j => key5 g il ol i ≤ key5 g il ol j)
  else
    (List.finRange n).insertionSort (fun i j => key4 il ol i ≤ key4 il ol j)

/-- The sort permutation as a function: position `i` of the sorted output holds
original node `sortPerm ... i`.  (Total via `getD`; the sorted index list has
length `n`, so the default is never used.) -/
def sortPerm [NeZero n] (g : Mat W n) (il ol : Fin n → α) (sort_nodes : Bool)
    (i : Fin n) : Fin n :=
  (_sort_inds g il ol sort_nodes).getD i.val i

/-- Symmetric reindexing `graph[perm, :][:, perm]`. -/
def reindexMat (p : Fin n → Fin n) (g : Mat W n) : Mat W n :=
  fun i j => g (p i) (p j)

/-- Source `_sort_graph(graph, inner_labels, outer_labels, sort_nodes)`: computes the
sort permutation and reindexes the graph symmetrically by it. -/
def _sort_graph [NeZero n] (g : Mat W n) (il ol : Fin n → α) (sort_nodes : Bool) :
    Mat W n :=
  reindexMat (sortPerm g il ol sort_nodes) g

/-! ### Group frequency analyzer (`_unique_like`, `_get_freqs`) -/

/-- The sorted distinct values of a list: the first output of `np.unique`. -/
def np_unique_vals (vals : List α) : List α :=
  (vals.dedup).insertionSort (fun a b => a ≤ b)

/-- Source `_unique_like(vals)`: `np.unique(vals, return_index=True, return_counts=True)`
followed by `inds_sort = np.argsort(inds); uniques[inds_sort], counts[inds_sort]`.
`np.unique`'s `return_index` gives each distinct value's first-occurrence index
(`vals.indexOf`), so reordering by ascending first index is sorting the distinct
values by `vals.indexOf`; each value's count rides along with it. -/
def _unique_like (vals : List α) : List α × List ℕ :=
  let uniques := (np_unique_vals vals).insertionSort
    (fun a b => vals.indexOf a ≤ vals.indexOf b)
  (uniques, uniques.map (fun v => vals.count v))

/-- Running sums, `np.cumsum`. -/
def cumsumFrom (acc : ℕ) : List ℕ → List ℕ
  | [] => []
  | x :: xs => (acc + x) :: cumsumFrom (acc + x) xs

/-- The vector `np.hstack((0, freq.cumsum()))`. -/
def cumsum0 (freq : List ℕ) : List ℕ :=
  0 :: cumsumFrom 0 freq

/-- The loop body of `_get_freqs`: for each outer-segment length `c` (the
outer frequencies in first-occurrence order), take the next `c` inner labels
(`inner_labels[start_ind:stop_ind]`, consecutive slices at the cumulative-sum
boundaries) and collect that segment's inner-label counts. -/
def segInnerFreq (inner : List α) : List ℕ → List ℕ
  | [] => []
  | c :: cs => (_unique_like (inner.take c)).2 ++ segInnerFreq (inner.drop c) cs

/-- Source `_get_freqs(inner_labels, outer_labels)`: outer frequencies in
first-occurrence order, inner frequencies computed per outer segment and
concatenated, and the 0-prefixed cumulative sums of both. Returns
`(inner_freq, inner_freq_cumsum, outer_freq, outer_freq_cumsum)`. -/
def _get_freqs (inner outer : List α) : List ℕ × List ℕ × List ℕ × List ℕ :=
  let outer_freq := (_unique_like outer).2
  let inner_freq := segInnerFreq inner outer_freq
  (inner_freq, cumsum0 inner_freq, outer_freq, cumsum0 outer_freq)

/-! ### Transforms (`_transform`) -/

/-- The masked in-place update `arr[arr > 0] = f(arr[arr > 0])` applied to a
copy of `arr`, where `f` is numpy's elementwise `log` or `log10`. -/
def maskedApply (f : W → W) (arr : Mat W n) : Mat W n :=
  fun i j => if 0 < arr i j then f (arr i j) else arr i j

/-- sklearn's `Binarizer()` with default threshold 0: entries strictly greater
than 0 map to 1, others to 0. -/
def binarizeMat (arr : Mat W n) : Mat W n :=
  fun i j => if 0 < arr i j then 1 else 0

/-- The `ValueError` message of `_transform` for an unknown method. -/
def transformErrMsg (m : String) : String :=
  "Transform must be one of \x7blog, log10, binarize, zero-boost, " ++
    "simple-all, simple-nonzero\x7d, not " ++ m ++ "."

/-- Source `_transform(arr, method)`.  The external collaborators are parameters:
`np_log`/`np_log10` model numpy's elementwise logarithms and `ptr` models
`graspologic.utils.pass_to_ranks` (out of scope of this module, consumed as a
black box). -/
def _transform (np_log np_log10 : W → W) (ptr : String → Mat W n → Mat W n)
    (arr : Mat W n) (method : Option String) : Except String (Mat W n) :=
  match method with
  | none => .ok arr
  | some m =>
    if m = "log" ∨ m = "log10" then
      .ok (maskedApply (if m = "log" then np_log else np_log10) arr)
    else if m = "zero-boost" ∨ m = "simple-all" ∨ m = "simple-nonzero" then
      .ok (ptr m arr)
    else if m = "binarize" then
      .ok (binarizeMat arr)
    else
      .error (transformErrMsg m)

/-! ### Aliasing / frame model for `_transform` and `_sort_graph`

Python ndarrays are references into a heap.  To state that the caller's array
is never mutated, arrays are modelled as indices (`ℕ`) into a store of
matrices; `arr.copy()` and fancy indexing allocate fresh cells at the end of
the store, and the in-place masked assignment of the `log` branch writes only
to the freshly allocated copy. -/

/-- The heap of allocated arrays. -/
abbrev Store (W : Type) (n : ℕ) : Type := List (Mat W n)

/-- Dereference an array handle (reads of dangling handles yield junk). -/
def readCell (s : Store W n) (r : ℕ) : Mat W n :=
  s.getD r (fun _ _ => 0)

/-- Allocate a fresh array holding `M`; returns the new store and the handle. -/
def allocCell (s : Store W n) (M : Mat W n) : Store W n × ℕ :=
  (s ++ [M], s.length)

/-- Overwrite the array at handle `r` in place. -/
def writeCell (s : Store W n) (r : ℕ) (M : Mat W n) : Store W n :=
  s.set r M

/-- Modelled from the spec: `pass_to_ranks` lives in `graspologic.utils`,
which is not under src/; per the spec it is an out-of-place rank transform
("Mutated only by out-of-place transforms (log, rank, binarize)"), so at the
store level it allocates a fresh array holding the rank-rescaled matrix. -/
def pass_to_ranks_ref (ptr : String → Mat W n → Mat W n) (s : Store W n)
    (r : ℕ) (m : String) : Store W n × ℕ :=
  allocCell s (ptr m (readCell s r))

/-- Source `_transform` at the store level.  `log`/`log10` first copy
(`arr = arr.copy()`) and then update the copy in place; `pass_to_ranks` and
`Binarizer().transform` return fresh arrays (out-of-place per their
contracts); method `None` returns the input handle unchanged. -/
def _transform_ref (np_log np_log10 : W → W) (ptr : String → Mat W n → Mat W n)
    (s : Store W n) (r : ℕ) (method : Option String) :
    Except String (Store W n × ℕ) :=
  match method with
  | none => .ok (s, r)
  | some m =>
    if m = "log" ∨ m = "log10" then
      let f := if m = "log" then np_log else np_log10
      let sr := allocCell s (readCell s r)
      .ok (writeCell sr.1 sr.2 (maskedApply f (readCell sr.1 sr.2)), sr.2)
    else if m = "zero-boost" ∨ m = "simple-all" ∨ m = "simple-nonzero" then
      .ok (pass_to_ranks_ref ptr s r m)
    else if m = "binarize" then
      .ok (allocCell s (binarizeMat (readCell s r)))
    else
      .error (transformErrMsg m)

/-- Source `_sort_graph` at the store level: `graph[inds, :][:, inds]` fancy indexing
allocates a fresh array. -/
def _sort_graph_ref [NeZero n] (s : Store W n) (r : ℕ) (il ol : Fin n → α)
    (sort_nodes : Bool) : Store W n × ℕ :=
  allocCell s (_sort_graph (readCell s r) il ol sort_nodes)

/-! ### `_process_graphs` -/

/-- Source `check_consistent_length(g, inner_hier_labels, outer_hier_labels)`:
the first dimension of the (square) graph and the lengths of the label arrays
that are not `None` must agree. -/
def checkLabelLen (n : ℕ) (lab : Option (List α)) : Bool :=
  match lab with
  | none => true
  | some l => l.length = n

/-- View a length-`n` list as a label vector (guarded by `checkLabelLen`, so
the `getD` default is never used). -/
def listLabel [One α] (l : List α) : Fin n → α :=
  fun i => l.getD i.val 1

/-- Source `_process_graphs(graphs, inner_hier_labels, outer_hier_labels, transform,
sort_nodes)`: length-check every graph against the labels, transform, then
sort.  When `inner_hier_labels is None` both levels are synthesized as
constant all-ones vectors (`np.ones`); when only `outer_hier_labels is None`
it is synthesized as `np.ones_like(inner_hier_labels)`. -/
def _process_graphs [NeZero n] [One α] (np_log np_log10 : W → W)
    (ptr : String → Mat W n → Mat W n) (graphs : List (Mat W n))
    (inner outer : Option (List α)) (method : Option String)
    (sort_nodes : Bool) : Except String (List (Mat W n)) :=
  if checkLabelLen n inner && checkLabelLen n outer then
    match graphs.mapM (fun g => _transform np_log np_log10 ptr g method) with
    | .error e => .error e
    | .ok gs =>
      match inner with
      | some li =>
        let ilF : Fin n → α := listLabel li
        let olF : Fin n → α :=
          match outer with
          | some lo => listLabel lo
          | none => fun _ => 1
        .ok (gs.map (fun g => _sort_graph g ilF olF sort_nodes))
      | none =>
        .ok (gs.map (fun g =>
          _sort_graph g (fun _ => (1 : ℤ)) (fun _ => (1 : ℤ)) sort_nodes))
  else
    .error "Found input variables with inconsistent numbers of samples"

/-! ### `_distplot` and `degreeplot` -/

/-- The drawing calls `_distplot` issues into the axis: a distribution curve
(`plt.plot` of the sorted data's ECDF, or `sns.histplot`) or a vertical line
`ax.axvline` at a single value. -/
inductive DrawCmd (β : Type) where
  | curve : List β → DrawCmd β
  | vline : β → DrawCmd β
deriving DecidableEq

/-- The slice `cat_data = data[np.where(labels == cat)]`: the data entries at the
positions whose label equals `cat`, in position order. -/
def catData {β : Type} (data : List β) (ls : List α) (c : α) : List β :=
  (ls.zip data).filterMap (fun p => if p.1 = c then some p.2 else none)

/-- Source `_distplot(data, labels)`, reduced to the drawing calls it issues.  With
labels, one command per category (in `np.unique`'s sorted order): a curve when
the category has more than one member and its data values are not all equal,
otherwise an axvline at the category's first data value.  Without labels, a
single curve, or a single axvline when all data values are equal.  `dflt` is
only read when indexing an empty data array (where python would raise). -/
def _distplot {β : Type} [LinearOrder β] (data : List β)
    (labels : Option (List α)) (dflt : β) : List (DrawCmd β) :=
  match labels with
  | some ls =>
    (np_unique_vals ls).map (fun c =>
      let cd := catData data ls c
      if 1 < ls.count c ∧ (cd.min?).getD dflt ≠ (cd.max?).getD dflt then
        DrawCmd.curve (cd.insertionSort (fun a b => a ≤ b))
      else
        DrawCmd.vline (cd.headD dflt))
  | none =>
    if (data.min?).getD dflt ≠ (data.max?).getD dflt then
      [DrawCmd.curve data]
    else
      [DrawCmd.vline (data.headD dflt)]

/-- The count `np.count_nonzero(X, axis=0)` at column `j`. -/
def countNonzeroCol (X : Mat W n) (j : Fin n) : ℕ :=
  ((List.finRange n).map (fun i => X i j)).countP (fun x => decide (x ≠ 0))

/-- The count `np.count_nonzero(X, axis=1)` at row `i`. -/
def countNonzeroRow (X : Mat W n) (i : Fin n) : ℕ :=
  ((List.finRange n).map (fun j => X i j)).countP (fun x => decide (x ≠ 0))

/-- The vector `degrees = np.count_nonzero(X, axis=axis)` with `axis = 0` for
`direction="out"` and `axis = 1` for `direction="in"`. -/
def degreesOf (X : Mat W n) (direction : String) : List ℕ :=
  if direction = "out" then (List.finRange n).map (countNonzeroCol X)
  else (List.finRange n).map (countNonzeroRow X)

/-- Source `degreeplot(X, labels, direction)`, reduced to the drawing calls of the
underlying `_distplot`; an unknown direction is a `ValueError`. -/
def degreeplot (X : Mat W n) (labels : Option (List α)) (direction : String) :
    Except String (List (DrawCmd ℕ)) :=
  if direction = "out" ∨ direction = "in" then
    .ok (_distplot (degreesOf X direction) labels 0)
  else
    .error "direction must be either \x22out\x22 or \x22in\x22"

/-! ### Concrete instances used by witnesses -/

/-- Witness graph on 3 nodes: a single symmetric edge between nodes 1 and 2,
node 0 isolated. -/
def gW : Mat ℤ 3 := fun i j =>
  if (i = 1 ∧ j = 2) ∨ (i = 2 ∧ j = 1) then 1 else 0

/-- Witness inner labels `[5, 7, 7]`. -/
def ilW : Fin 3 → ℤ := fun i => ([5, 7, 7] : List ℤ).getD i.val 0

/-- Witness outer labels (a single group). -/
def olW : Fin 3 → ℤ := fun _ => 1

/-- Witness stand-in for numpy's elementwise `log` over `ℤ`. -/
def logZ : ℤ → ℤ := fun x => x - 100

/-- Witness stand-in for numpy's elementwise `log10` over `ℤ`. -/
def log10Z : ℤ → ℤ := fun x => x - 1000

/-- Witness stand-in for `pass_to_ranks` over `ℤ`. -/
def ptrZ : String → Mat ℤ 3 → Mat ℤ 3 := fun _ M => M

/-- Witness labels `[10, 20, 20]` giving node 0 a singleton category. -/
def lsW : List ℤ := [10, 20, 20]

instance {ε β : Type} [DecidableEq ε] [DecidableEq β] : DecidableEq (Except ε β) :=
  fun a b =>
    match a, b with
    | .ok x, .ok y => decidable_of_iff (x = y) (by simp)
    | .error x, .error y => decidable_of_iff (x = y) (by simp)
    | .ok _, .error _ => isFalse (by simp)
    | .error _, .ok _ => isFalse (by simp)

/-! ### Generic lemmas: a stable sort of `0..n-1` by a key -/

theorem sorted_insertionSortKey {κ : Type} [LinearOrder κ] (k : Fin n → κ) :
    ((List.finRange n).insertionSort (fun i j => k i ≤ k j)).Pairwise
      (fun i j => k i ≤ k j) := by
  haveI : IsTotal (Fin n) (fun i j => k i ≤ k j) := ⟨fun a b => le_total _ _⟩
  haveI : IsTrans (Fin n) (fun i j => k i ≤ k j) := ⟨fun a b c => le_trans⟩
  exact List.sorted_insertionSort _ _

theorem perm_insertionSortKey {κ : Type} [LinearOrder κ] (k : Fin n → κ) :
    ((List.finRange n).insertionSort (fun i j => k i ≤ k j)).Perm
      (List.finRange n) :=
  List.perm_insertionSort _ _

theorem pair_sublist_of_sorted {β : Type} [LinearOrder β] :
    ∀ l : List β, l.Pairwise (fun a b => a < b) →
      ∀ a b : β, a ∈ l → b ∈ l → a < b → List.Sublist [a, b] l := by
  intro l
  induction l with
  | nil => intro _ a b ha; cases ha
  | cons x t ih =>
    intro hp a b ha hb hab
    have hx : ∀ y ∈ t, x < y := fun y hy => List.rel_of_pairwise_cons hp hy
    have ht : t.Pairwise (fun a b => a < b) := hp.of_cons
    rcases List.mem_cons.mp ha with rfl | hat
    · have hbt : b ∈ t := by
        rcases List.mem_cons.mp hb with rfl | h
        · exact absurd hab (lt_irrefl _)
        · exact h
      exact (List.singleton_sublist.mpr hbt).cons₂ a
    · have hbt : b ∈ t := by
        rcases List.mem_cons.mp hb with rfl | h
        · exact absurd (lt_trans (hx a hat) hab) (lt_irrefl _)
        · exact h
      exact (ih ht a b hat hbt hab).cons x

theorem eq_of_pair_sublists_of_nodup {β : Type} :
    ∀ l : List β, l.Nodup → ∀ a b : β, List.Sublist [a, b] l → List.Sublist [b, a] l → a = b := by
  intro l
  induction l with
  | nil => intro _ a b h; cases h
  | cons x t ih =>
    intro hn a b h₁ h₂
    have hx : x ∉ t := (List.nodup_cons.mp hn).1
    have ht : t.Nodup := (List.nodup_cons.mp hn).2
    cases h₁ with
    | cons _ h₁' =>
      cases h₂ with
      | cons _ h₂' => exact ih ht a b h₁' h₂'
      | cons₂ _ h₂' => exact absurd (h₁'.subset (by simp)) hx
    | cons₂ _ h₁' =>
      cases h₂ with
      | cons _ h₂' => exact absurd (h₂'.subset (by simp)) hx
      | cons₂ _ h₂' => rfl

theorem stable_insertionSortKey {κ : Type} [LinearOrder κ] (k : Fin n → κ) :
    ((List.finRange n).insertionSort (fun i j => k i ≤ k j)).Pairwise
      (fun i j => k i < k j ∨ (k i = k j ∧ i < j)) := by
  haveI : IsTotal (Fin n) (fun i j => k i ≤ k j) := ⟨fun a b => le_total _ _⟩
  haveI : IsTrans (Fin n) (fun i j => k i ≤ k j) := ⟨fun a b c => le_trans⟩
  rw [List.pairwise_iff_forall_sublist]
  intro a b hab
  have hperm := perm_insertionSortKey k
  have hnd : ((List.finRange n).insertionSort (fun i j => k i ≤ k j)).Nodup :=
    hperm.nodup_iff.mpr (List.nodup_finRange n)
  have hle : k a ≤ k b := List.pairwise_iff_forall_sublist.mp (sorted_insertionSortKey k) hab
  have hne : a ≠ b := List.pairwise_iff_forall_sublist.mp hnd hab
  rcases lt_or_eq_of_le hle with hlt | heq
  · exact Or.inl hlt
  · refine Or.inr ⟨heq, ?_⟩
    rcases lt_or_gt_of_ne hne with h | h
    · exact h
    · exfalso
      have hfin : List.Sublist [b, a] (List.finRange n) :=
        pair_sublist_of_sorted (List.finRange n) (List.pairwise_lt_finRange n)
          b a (List.mem_finRange b) (List.mem_finRange a) h
      have hsorted : List.Sublist [b, a]
          ((List.finRange n).insertionSort (fun i j => k i ≤ k j)) :=
        List.pair_sublist_insertionSort (le_of_eq heq.symm) hfin
      exact hne (eq_of_pair_sublists_of_nodup _ hnd a b hab hsorted)

theorem insertionSortKey_eq_finRange {κ : Type} [LinearOrder κ] (k : Fin n → κ)
    (hm : ∀ i j : Fin n, i ≤ j → k i ≤ k j) :
    (List.finRange n).insertionSort (fun i j => k i ≤ k j) = List.finRange n :=
  List.Sorted.insertionSort_eq
    ((List.pairwise_lt_finRange n).imp (fun h => hm _ _ (le_of_lt h)))

/-! ### Facts about `_sort_inds` and `sortPerm` -/

theorem sortInds_perm [NeZero n] (g : Mat W n) (il ol : Fin n → α) (b : Bool) :
    (_sort_inds g il ol b).Perm (List.finRange n) := by
  cases b <;> simp only [_sort_inds, if_true, if_false, Bool.false_eq_true,
    reduceIte] <;> exact List.perm_insertionSort _ _

theorem sortInds_length [NeZero n] (g : Mat W n) (il ol : Fin n → α) (b : Bool) :
    (_sort_inds g il ol b).length = n :=
  ((sortInds_perm g il ol b).length_eq).trans (List.length_finRange n)

theorem sortInds_nodup [NeZero n] (g : Mat W n) (il ol : Fin n → α) (b : Bool) :
    (_sort_inds g il ol b).Nodup :=
  (sortInds_perm g il ol b).nodup_iff.mpr (List.nodup_finRange n)

theorem sortPerm_eq_get [NeZero n] (g : Mat W n) (il ol : Fin n → α) (b : Bool)
    (i : Fin n) :
    sortPerm g il ol b i = (_sort_inds g il ol b).get
      ⟨i.val, by rw [sortInds_length]; exact i.isLt⟩ := by
  have hlen : i.val < (_sort_inds g il ol b).length := by
    rw [sortInds_length]; exact i.isLt
  unfold sortPerm
  rw [List.getD_eq_getElem _ _ hlen]
  rfl

theorem sortPerm_injective [NeZero n] (g : Mat W n) (il ol : Fin n → α)
    (b : Bool) : Function.Injective (sortPerm g il ol b) := by
  intro i j hij
  rw [sortPerm_eq_get, sortPerm_eq_get] at hij
  have h := (List.Nodup.get_inj_iff (sortInds_nodup g il ol b)).mp hij
  have hv := Fin.val_eq_of_eq h
  exact Fin.ext hv

theorem sortPerm_bijective [NeZero n] (g : Mat W n) (il ol : Fin n → α)
    (b : Bool) : Function.Bijective (sortPerm g il ol b) :=
  Finite.injective_iff_bijective.mp (sortPerm_injective g il ol b)

/-- C1: for every square numeric matrix, equal-length inner and outer label
vectors and both values of the degree-sort flag, `_sort_inds` returns exactly
the stable sort of the node indices by the key
`(outer_counts, outer_label, inner_counts, inner_label[, degree_key])`, where
`outer_counts = n - (outer group size)`, `inner_counts = n - (inner group
size)` (so larger groups first, then labels ascending) and, only when the flag
is set, `degree_key = (max edge-sum) - (node edge-sum)` (edge-sum = row sum +
column sum).  The output is a permutation of `0..n-1` and is sorted strictly
by `(key, original index)`: nodes equal under all keys keep their original
relative index order. -/
theorem sort_inds_is_stable_key_sort {W : Type} [LinearOrderedCommRing W]
    {α : Type} [LinearOrder α] {n : ℕ} [NeZero n] (g : Mat W n)
    (il ol : Fin n → α) (sort_nodes : Bool) :
    (_sort_inds g il ol sort_nodes).Perm (List.finRange n) ∧
      (_sort_inds g il ol sort_nodes).Pairwise (fun i j =>
        if sort_nodes then
          key5 g il ol i < key5 g il ol j ∨
            (key5 g il ol i = key5 g il ol j ∧ i < j)
        else
          key4 il ol i < key4 il ol j ∨
            (key4 il ol i = key4 il ol j ∧ i < j)) := by
  refine ⟨sortInds_perm g il ol sort_nodes, ?_⟩
  cases sort_nodes
  · simpa [_sort_inds] using stable_insertionSortKey (key4 il ol)
  · simpa [_sort_inds] using stable_insertionSortKey (key5 g il ol)

/-- Witness for C1 at a concrete graph, labels and flag. -/
theorem sort_inds_is_stable_key_sort_witness :
    (_sort_inds gW ilW olW true).Perm (List.finRange 3) ∧
      (_sort_inds gW ilW olW true).Pairwise (fun i j =>
        if true then
          key5 gW ilW olW i < key5 gW ilW olW j ∨
            (key5 gW ilW olW i = key5 gW ilW olW j ∧ i < j)
        else
          key4 ilW olW i < key4 ilW olW j ∨
            (key4 ilW olW i = key4 ilW olW j ∧ i < j)) :=
  sort_inds_is_stable_key_sort gW ilW olW true

/-- C7: for every graph, labels and flag value, the output of `_sort_inds` is
a permutation of `0..n-1`: it has length `n` and every index appears exactly
once. -/
theorem sort_inds_output_is_permutation {W : Type} [LinearOrderedCommRing W]
    {α : Type} [LinearOrder α] {n : ℕ} [NeZero n] (g : Mat W n)
    (il ol : Fin n → α) (sort_nodes : Bool) :
    (_sort_inds g il ol sort_nodes).length = n ∧
      ∀ i : Fin n, (_sort_inds g il ol sort_nodes).count i = 1 := by
  refine ⟨sortInds_length g il ol sort_nodes, fun i => ?_⟩
  rw [(sortInds_perm g il ol sort_nodes).count_eq]
  exact List.count_eq_one_of_mem (List.nodup_finRange n) (List.mem_finRange i)

/-- Witness for C7 at a concrete graph, labels and flag. -/
theorem sort_inds_output_is_permutation_witness :
    (_sort_inds gW ilW olW false).length = 3 ∧
      ∀ i : Fin 3, (_sort_inds gW ilW olW false).count i = 1 :=
  sort_inds_output_is_permutation gW ilW olW false

/-- C5: symmetric reindexing round-trips: the reindexing
`graph[perm, :][:, perm]` (as `_sort_graph` performs it, `reindexMat`)
followed by the same reindexing with the inverse permutation returns the
original matrix, entry for entry. -/
theorem reindex_roundtrip {W : Type} [LinearOrderedCommRing W] {n : ℕ}
    (g : Mat W n) (p : Equiv.Perm (Fin n)) :
    reindexMat (fun i => p.symm i) (reindexMat (fun i => p i) g) = g := by
  funext i j
  simp [reindexMat]

/-! ### Invariance of the sort keys under node relabelling -/

theorem map_finRange_perm_of_bijective (p : Fin n → Fin n)
    (hp : Function.Bijective p) :
    ((List.finRange n).map p).Perm (List.finRange n) := by
  rw [List.perm_ext_iff_of_nodup ((List.nodup_finRange n).map hp.injective)
    (List.nodup_finRange n)]
  intro a
  constructor
  · intro _
    exact List.mem_finRange a
  · intro _
    rcases hp.surjective a with ⟨b, rfl⟩
    exact List.mem_map.mpr ⟨b, List.mem_finRange b, rfl⟩

theorem map_comp_finRange_perm {β : Type} (f : Fin n → β) (p : Fin n → Fin n)
    (hp : Function.Bijective p) :
    ((List.finRange n).map (fun i => f (p i))).Perm ((List.finRange n).map f) := by
  have h1 : (List.finRange n).map (fun i => f (p i)) =
      ((List.finRange n).map p).map f := by
    rw [List.map_map]; rfl
  rw [h1]
  exact (map_finRange_perm_of_bijective p hp).map f

theorem freq_vec_comp_perm (lab : Fin n → α) (p : Fin n → Fin n)
    (hp : Function.Bijective p) (i : Fin n) :
    _get_freq_vec (fun t => lab (p t)) i = _get_freq_vec lab (p i) := by
  unfold _get_freq_vec
  exact (map_comp_finRange_perm lab p hp).count_eq _

theorem rowSum_reindex (g : Mat W n) (p : Fin n → Fin n)
    (hp : Function.Bijective p) (i : Fin n) :
    rowSum (reindexMat p g) i = rowSum g (p i) := by
  unfold rowSum reindexMat
  exact (map_comp_finRange_perm (fun j => g (p i) j) p hp).sum_eq

theorem colSum_reindex (g : Mat W n) (p : Fin n → Fin n)
    (hp : Function.Bijective p) (i : Fin n) :
    colSum (reindexMat p g) i = colSum g (p i) := by
  unfold colSum reindexMat
  exact (map_comp_finRange_perm (fun j => g j (p i)) p hp).sum_eq

theorem node_edgesums_reindex (g : Mat W n) (p : Fin n → Fin n)
    (hp : Function.Bijective p) (i : Fin n) :
    node_edgesums (reindexMat p g) i = node_edgesums g (p i) := by
  unfold node_edgesums
  rw [rowSum_reindex g p hp i, colSum_reindex g p hp i]

theorem max?_eq_of_perm {β : Type} [LinearOrder β] {l₁ l₂ : List β}
    (h : l₁.Perm l₂) : l₁.max? = l₂.max? := by
  haveI : Std.Antisymm ((· : β) ≤ ·) := ⟨fun hab hba => le_antisymm hab hba⟩
  rcases h₁ : l₁.max? with _ | a
  · have h2 : l₁ = [] := List.max?_eq_none_iff.mp h₁
    subst h2
    rw [h.symm.eq_nil]
    exact h₁.symm
  · have h2 := (List.max?_eq_some_iff (fun a => le_refl a)
      (fun a b => max_choice a b) (fun a b c => max_le_iff)).mp h₁
    symm
    rw [List.max?_eq_some_iff (fun a => le_refl a)
      (fun a b => max_choice a b) (fun a b c => max_le_iff)]
    exact ⟨h.mem_iff.mp h2.1, fun b hb => h2.2 b (h.mem_iff.mpr hb)⟩

theorem max_edgesum_reindex [NeZero n] (g : Mat W n) (p : Fin n → Fin n)
    (hp : Function.Bijective p) :
    max_edgesum (reindexMat p g) = max_edgesum g := by
  unfold max_edgesum
  have hfun : node_edgesums (reindexMat p g) =
      fun i => node_edgesums g (p i) :=
    funext (node_edgesums_reindex g p hp)
  rw [hfun, max?_eq_of_perm (map_comp_finRange_perm (node_edgesums g) p hp)]

theorem key4_reindex (il ol : Fin n → α) (p : Fin n → Fin n)
    (hp : Function.Bijective p) (i : Fin n) :
    key4 (fun t => il (p t)) (fun t => ol (p t)) i = key4 il ol (p i) := by
  unfold key4
  rw [freq_vec_comp_perm il p hp i, freq_vec_comp_perm ol p hp i]

theorem key5_reindex [NeZero n] (g : Mat W n) (il ol : Fin n → α)
    (p : Fin n → Fin n) (hp : Function.Bijective p) (i : Fin n) :
    key5 (reindexMat p g) (fun t => il (p t)) (fun t => ol (p t)) i =
      key5 g il ol (p i) := by
  unfold key5
  rw [freq_vec_comp_perm il p hp i, freq_vec_comp_perm ol p hp i,
    max_edgesum_reindex g p hp, node_edgesums_reindex g p hp i]

theorem insertionSortKey_congr {κ : Type} [LinearOrder κ] {k₁ k₂ : Fin n → κ}
    (h : ∀ i, k₁ i = k₂ i) :
    (List.finRange n).insertionSort (fun i j => k₁ i ≤ k₁ j) =
      (List.finRange n).insertionSort (fun i j => k₂ i ≤ k₂ j) := by
  have hk : k₁ = k₂ := funext h
  subst hk
  rfl

theorem sortedKey_getD_mono {κ : Type} [LinearOrder κ] (k : Fin n → κ)
    (i j : Fin n) (hij : i ≤ j) :
    k (((List.finRange n).insertionSort (fun a b => k a ≤ k b)).getD i.val i) ≤
      k (((List.finRange n).insertionSort (fun a b => k a ≤ k b)).getD j.val j) := by
  rcases eq_or_lt_of_le hij with rfl | hlt
  · exact le_refl _
  · set s := (List.finRange n).insertionSort (fun a b => k a ≤ k b) with hs
    have hlen : s.length = n := by simp [hs]
    have hi : i.val < s.length := by rw [hlen]; exact i.isLt
    have hj : j.val < s.length := by rw [hlen]; exact j.isLt
    rw [List.getD_eq_getElem _ _ hi, List.getD_eq_getElem _ _ hj]
    have hp := sorted_insertionSortKey k
    rw [List.pairwise_iff_get] at hp
    have hres := hp ⟨i.val, hi⟩ ⟨j.val, hj⟩ (Fin.mk_lt_mk.mpr hlt)
    simpa using hres

/-- C4: the hierarchical sort is idempotent: applying the permutation returned
by `_sort_inds` to the graph (symmetrically, as `_sort_graph` does) and to
both label vectors and sorting again with the same flag yields the identity
permutation `0..n-1`. -/
theorem sort_inds_idempotent {W : Type} [LinearOrderedCommRing W] {α : Type}
    [LinearOrder α] {n : ℕ} [NeZero n] (g : Mat W n) (il ol : Fin n → α)
    (sort_nodes : Bool) :
    _sort_inds (_sort_graph g il ol sort_nodes)
      (fun i => il (sortPerm g il ol sort_nodes i))
      (fun i => ol (sortPerm g il ol sort_nodes i)) sort_nodes =
        List.finRange n := by
  have hbij := sortPerm_bijective g il ol sort_nodes
  cases sort_nodes
  · simp only [_sort_inds, Bool.false_eq_true, reduceIte]
    rw [insertionSortKey_congr
      (fun t => key4_reindex il ol (sortPerm g il ol false) hbij t)]
    exact insertionSortKey_eq_finRange _
      (fun i j hij => sortedKey_getD_mono (key4 il ol) i j hij)
  · simp only [_sort_inds, reduceIte, _sort_graph]
    rw [insertionSortKey_congr
      (fun t => key5_reindex g il ol (sortPerm g il ol true) hbij t)]
    exact insertionSortKey_eq_finRange _
      (fun i j hij => sortedKey_getD_mono (key5 g il ol) i j hij)

/-- Witness for C4 at a concrete graph, labels and flag. -/
theorem sort_inds_idempotent_witness :
    _sort_inds (_sort_graph gW ilW olW true)
      (fun i => ilW (sortPerm gW ilW olW true i))
      (fun i => olW (sortPerm gW ilW olW true i)) true = List.finRange 3 :=
  sort_inds_idempotent gW ilW olW true

/-- C2: `_unique_like` returns the distinct label values in order of first
appearance in the input (characterized as: a duplicate-free list with the same
members as the input, sorted strictly by first-occurrence index) together with
each value's occurrence count in that same order; in particular it is not the
sorted order: on `[3,1,1,2]` it returns values `[3,1,2]` with counts `[1,2,1]`. -/
theorem unique_like_first_occurrence_order :
    (∀ {α : Type} [LinearOrder α] (vals : List α),
        (_unique_like vals).1.Nodup ∧
        (∀ a : α, a ∈ (_unique_like vals).1 ↔ a ∈ vals) ∧
        (_unique_like vals).1.Pairwise
          (fun a b => vals.indexOf a < vals.indexOf b) ∧
        (_unique_like vals).2 = (_unique_like vals).1.map
          (fun v => vals.count v)) ∧
      _unique_like ([3, 1, 1, 2] : List ℤ) = ([3, 1, 2], [1, 2, 1]) := by
  constructor
  · intro α _ vals
    have hperm : (_unique_like vals).1.Perm vals.dedup :=
      (List.perm_insertionSort _ _).trans (List.perm_insertionSort _ _)
    have hnd : (_unique_like vals).1.Nodup :=
      hperm.nodup_iff.mpr (List.nodup_dedup vals)
    have hmem : ∀ a : α, a ∈ (_unique_like vals).1 ↔ a ∈ vals := fun a =>
      (hperm.mem_iff).trans List.mem_dedup
    refine ⟨hnd, hmem, ?_, rfl⟩
    haveI : IsTotal α (fun a b => vals.indexOf a ≤ vals.indexOf b) :=
      ⟨fun a b => Nat.le_total _ _⟩
    haveI : IsTrans α (fun a b => vals.indexOf a ≤ vals.indexOf b) :=
      ⟨fun a b c => Nat.le_trans⟩
    have hsorted : (_unique_like vals).1.Pairwise
        (fun a b => vals.indexOf a ≤ vals.indexOf b) :=
      List.sorted_insertionSort _ _
    have hnd' : (_unique_like vals).1.Pairwise (fun a b => a ≠ b) := hnd
    refine List.Pairwise.imp_of_mem ?_ (hsorted.and hnd')
    intro a b hma hmb hab
    exact lt_of_le_of_ne hab.1 (fun heq => hab.2
      ((List.indexOf_inj ((hmem a).mp hma) ((hmem b).mp hmb)).mp heq))
  · decide

/-! ### Cumulative sums and per-segment frequencies (`_get_freqs`) -/

theorem cumsumFrom_length (l : List ℕ) : ∀ acc, (cumsumFrom acc l).length = l.length := by
  induction l with
  | nil => intro acc; rfl
  | cons c cs ih => intro acc; simp [cumsumFrom, ih]

theorem cumsumFrom_shift (l : List ℕ) :
    ∀ a acc, cumsumFrom (a + acc) l = (cumsumFrom acc l).map (fun x => a + x) := by
  induction l with
  | nil => intro a acc; rfl
  | cons c cs ih =>
    intro a acc
    simp only [cumsumFrom, List.map_cons, Nat.add_assoc, ih]

theorem cumsumFrom_getD :
    ∀ (f : List ℕ) (k : ℕ), k < f.length →
      (cumsumFrom 0 f).getD k 0 = (f.take (k + 1)).sum := by
  intro f
  induction f with
  | nil => intro k hk; cases hk
  | cons c cs ih =>
    intro k hk
    cases k with
    | zero => simp [cumsumFrom]
    | succ k =>
      have hk' : k < cs.length := Nat.lt_of_succ_lt_succ hk
      have hshift : cumsumFrom c cs = (cumsumFrom 0 cs).map (fun x => c + x) := by
        have h0 := cumsumFrom_shift cs c 0
        simpa [Nat.zero_add, Nat.add_zero] using h0
      have hlen : k < (cumsumFrom 0 cs).length := by
        rw [cumsumFrom_length]; exact hk'
      have hlen2 : k < ((cumsumFrom 0 cs).map (fun x => c + x)).length := by
        simpa using hlen
      calc (cumsumFrom 0 (c :: cs)).getD (k + 1) 0
      _ = ((cumsumFrom 0 cs).map (fun x => c + x)).getD k 0 := by
        simp only [cumsumFrom, Nat.zero_add, List.getD_cons_succ, hshift]
      _ = c + (cumsumFrom 0 cs).getD k 0 := by
        rw [List.getD_eq_getElem _ _ hlen2, List.getD_eq_getElem _ _ hlen]
        simp
      _ = c + (cs.take (k + 1)).sum := by rw [ih k hk']
      _ = ((c :: cs).take (k + 2)).sum := by simp

theorem cumsum0_getD (f : List ℕ) (k : ℕ) (hk : k ≤ f.length) :
    (cumsum0 f).getD k 0 = (f.take k).sum := by
  cases k with
  | zero => simp [cumsum0]
  | succ k =>
    have hk' : k < f.length := Nat.lt_of_succ_le hk
    calc (cumsum0 f).getD (k + 1) 0
    _ = (cumsumFrom 0 f).getD k 0 := by simp [cumsum0]
    _ = (f.take (k + 1)).sum := cumsumFrom_getD f k hk'

theorem scanl_add_eq_cons_cumsumFrom (f : List ℕ) :
    ∀ acc, f.scanl (fun a b => a + b) acc = acc :: cumsumFrom acc f := by
  induction f with
  | nil => intro acc; rfl
  | cons c cs ih => intro acc; simp [List.scanl_cons, cumsumFrom, ih]

theorem flatMap_map_fn {β γ δ : Type} (f : β → γ) (g : γ → List δ) (l : List β) :
    (l.map f).flatMap g = l.flatMap (fun x => g (f x)) := by
  simp [List.flatMap, List.map_map]
  rfl

theorem flatMap_congr_mem {β γ : Type} {l : List β} {f g : β → List γ}
    (h : ∀ a ∈ l, f a = g a) : l.flatMap f = l.flatMap g := by
  simp only [List.flatMap]
  rw [List.map_congr_left h]

theorem get_freqs_def (inner outer : List α) :
    _get_freqs inner outer =
      (segInnerFreq inner (_unique_like outer).2,
        cumsum0 (segInnerFreq inner (_unique_like outer).2),
        (_unique_like outer).2, cumsum0 (_unique_like outer).2) := rfl

theorem segInnerFreq_eq_ranges {α : Type} [LinearOrder α] :
    ∀ (f : List ℕ) (inner : List α),
      segInnerFreq inner f = (List.range f.length).flatMap
        (fun k => (_unique_like
          ((inner.take ((f.take (k + 1)).sum)).drop ((f.take k).sum))).2) := by
  intro f
  induction f with
  | nil => intro inner; simp [segInnerFreq]
  | cons c cs ih =>
    intro inner
    have hslice : ∀ k : ℕ,
        (inner.take (((c :: cs).take (k + 2)).sum)).drop
            (((c :: cs).take (k + 1)).sum) =
          ((inner.drop c).take ((cs.take (k + 1)).sum)).drop ((cs.take k).sum) := by
      intro k
      rw [List.take_drop, List.drop_drop]
      simp
    calc segInnerFreq inner (c :: cs)
    _ = (_unique_like (inner.take c)).2 ++ segInnerFreq (inner.drop c) cs := rfl
    _ = (_unique_like (inner.take c)).2 ++ (List.range cs.length).flatMap
          (fun k => (_unique_like
            (((inner.drop c).take ((cs.take (k + 1)).sum)).drop
              ((cs.take k).sum))).2) := by rw [ih]
    _ = (_unique_like (inner.take c)).2 ++ (List.range cs.length).flatMap
          (fun k => (_unique_like
            ((inner.take (((c :: cs).take (k + 2)).sum)).drop
              (((c :: cs).take (k + 1)).sum))).2) := by
        refine congrArg _ (flatMap_congr_mem ?_)
        intro k _
        rw [hslice k]
    _ = (List.range (c :: cs).length).flatMap
          (fun k => (_unique_like
            ((inner.take (((c :: cs).take (k + 1)).sum)).drop
              (((c :: cs).take k).sum))).2) := by
        rw [List.length_cons, List.range_succ_eq_map, List.flatMap_cons,
          flatMap_map_fn]
        simp

/-- C3: `_get_freqs` computes inner-label frequencies separately within each
contiguous outer segment (the consecutive slices of the input at the
0-prefixed cumulative sums of the first-occurrence outer frequencies) and
concatenates them across segments — not globally; both cumulative-sum boundary
vectors are the running sums prefixed with `0`; on outer `[0,0,1]` with inner
`[1,2,1]` segment `0` contributes counts `[1,1]` and segment `1` contributes
`[1]` even though the label `1` occurs in both segments, while the global
counts of the inner labels would be `[2,1]`. -/
theorem get_freqs_per_outer_segment :
    (∀ {α : Type} [LinearOrder α] (inner outer : List α),
        (_get_freqs inner outer).1 =
          (List.range (_get_freqs inner outer).2.2.1.length).flatMap
            (fun k => (_unique_like
              ((inner.take ((_get_freqs inner outer).2.2.2.getD (k + 1) 0)).drop
                ((_get_freqs inner outer).2.2.2.getD k 0))).2)) ∧
      (∀ freq : List ℕ, cumsum0 freq = freq.scanl (fun a b => a + b) 0) ∧
      _get_freqs ([1, 2, 1] : List ℤ) ([0, 0, 1] : List ℤ) =
        ([1, 1, 1], [0, 1, 2, 3], [2, 1], [0, 2, 3]) ∧
      (_unique_like ([1, 2, 1] : List ℤ)).2 = [2, 1] := by
  refine ⟨?_, ?_, by decide, by decide⟩
  · intro α _ inner outer
    rw [get_freqs_def]
    dsimp only
    rw [segInnerFreq_eq_ranges]
    refine flatMap_congr_mem ?_
    intro k hk
    have hklen : k < (_unique_like outer).2.length := List.mem_range.mp hk
    rw [cumsum0_getD _ _ (Nat.le_of_lt hklen),
      cumsum0_getD _ _ (Nat.succ_le_of_lt hklen)]
  · intro freq
    rw [scanl_add_eq_cons_cumsumFrom]
    rfl

/-- C6: `_transform` with method `log` (resp. `log10`) replaces every strictly
positive entry `x` by `np_log x` (resp. `np_log10 x`) and leaves every
non-positive entry unchanged; `binarize` returns a 0/1 matrix whose positive
entries sit exactly where the input was positive; an unrecognized method
string is a `ValueError`. -/
theorem transform_semantics {W : Type} [LinearOrderedCommRing W] {n : ℕ}
    (np_log np_log10 : W → W) (ptr : String → Mat W n → Mat W n)
    (arr : Mat W n) (m : String)
    (hm : m ∉ (["log", "log10", "zero-boost", "simple-all", "simple-nonzero",
      "binarize"] : List String)) :
    (_transform np_log np_log10 ptr arr (some "log") =
        .ok (maskedApply np_log arr) ∧
      ∀ i j, (0 < arr i j → maskedApply np_log arr i j = np_log (arr i j)) ∧
        (¬0 < arr i j → maskedApply np_log arr i j = arr i j)) ∧
    (_transform np_log np_log10 ptr arr (some "log10") =
        .ok (maskedApply np_log10 arr) ∧
      ∀ i j, (0 < arr i j → maskedApply np_log10 arr i j = np_log10 (arr i j)) ∧
        (¬0 < arr i j → maskedApply np_log10 arr i j = arr i j)) ∧
    (_transform np_log np_log10 ptr arr (some "binarize") =
        .ok (binarizeMat arr) ∧
      ∀ i j, (binarizeMat arr i j = 0 ∨ binarizeMat arr i j = 1) ∧
        (0 < binarizeMat arr i j ↔ 0 < arr i j)) ∧
    _transform np_log np_log10 ptr arr (some m) = .error (transformErrMsg m) := by
  refine ⟨⟨rfl, fun i j => ⟨fun h => ?_, fun h => ?_⟩⟩,
    ⟨rfl, fun i j => ⟨fun h => ?_, fun h => ?_⟩⟩,
    ⟨rfl, fun i j => ⟨?_, ?_⟩⟩, ?_⟩
  · simp [maskedApply, h]
  · simp [maskedApply, h]
  · simp [maskedApply, h]
  · simp [maskedApply, h]
  · by_cases h : 0 < arr i j <;> simp [binarizeMat, h]
  · by_cases h : 0 < arr i j <;> simp [binarizeMat, h]
  · simp only [List.mem_cons, List.not_mem_nil, or_false, not_or] at hm
    obtain ⟨h1, h2, h3, h4, h5, h6⟩ := hm
    simp [_transform, h1, h2, h3, h4, h5, h6]

/-- Witness for C6 at a concrete matrix, concrete stand-ins for the external
elementwise functions and the unknown method string `"rank"`. -/
theorem transform_semantics_witness :
    (_transform logZ log10Z ptrZ gW (some "log") =
        .ok (maskedApply logZ gW) ∧
      ∀ i j, (0 < gW i j → maskedApply logZ gW i j = logZ (gW i j)) ∧
        (¬0 < gW i j → maskedApply logZ gW i j = gW i j)) ∧
    (_transform logZ log10Z ptrZ gW (some "log10") =
        .ok (maskedApply log10Z gW) ∧
      ∀ i j, (0 < gW i j → maskedApply log10Z gW i j = log10Z (gW i j)) ∧
        (¬0 < gW i j → maskedApply log10Z gW i j = gW i j)) ∧
    (_transform logZ log10Z ptrZ gW (some "binarize") =
        .ok (binarizeMat gW) ∧
      ∀ i j, (binarizeMat gW i j = 0 ∨ binarizeMat gW i j = 1) ∧
        (0 < binarizeMat gW i j ↔ 0 < gW i j)) ∧
    _transform logZ log10Z ptrZ gW (some "rank") = .error (transformErrMsg "rank") :=
  transform_semantics logZ log10Z ptrZ gW "rank" (by decide)

/-! ### Frame facts about the store model -/

theorem set_append_length {β : Type} (l : List β) (M M2 : β) :
    (l ++ [M]).set l.length M2 = l ++ [M2] := by
  induction l with
  | nil => rfl
  | cons x t ih => simp [List.set, ih]

theorem readCell_append_lt (s : Store W n) (M : Mat W n) (t : ℕ)
    (ht : t < s.length) : readCell (s ++ [M]) t = readCell s t :=
  List.getD_append s [M] _ t ht

theorem readCell_append_self (s : Store W n) (M : Mat W n) :
    readCell (s ++ [M]) s.length = M := by
  unfold readCell
  rw [List.getD_eq_getElem _ _ (by simp)]
  exact List.getElem_concat_length s M s.length rfl _

theorem writeCell_append_length (s : Store W n) (M M2 : Mat W n) :
    writeCell (s ++ [M]) s.length M2 = s ++ [M2] :=
  set_append_length s M M2

/-- C8: the caller's array is never mutated: `_transform` (with any of the six
valid methods) and `_sort_graph` leave every previously allocated cell — in
particular the input array — unchanged, and return a freshly allocated handle
(`s.length`, distinct from the input handle) whose content is the pure
transformed/reindexed matrix. -/
theorem transform_and_sort_never_mutate {W : Type} [LinearOrderedCommRing W]
    {α : Type} [LinearOrder α] {n : ℕ} [NeZero n] (np_log np_log10 : W → W)
    (ptr : String → Mat W n → Mat W n) (s : Store W n) (r : ℕ)
    (hr : r < s.length) (m : String)
    (hm : m ∈ (["log", "log10", "zero-boost", "simple-all", "simple-nonzero",
      "binarize"] : List String)) (il ol : Fin n → α) (sort_nodes : Bool) :
    ((_transform_ref np_log np_log10 ptr s r (some m)).map (fun p => p.2) =
        .ok s.length ∧
      (_transform_ref np_log np_log10 ptr s r (some m)).map
          (fun p => readCell p.1 s.length) =
        _transform np_log np_log10 ptr (readCell s r) (some m) ∧
      (∀ t, t < s.length →
        (_transform_ref np_log np_log10 ptr s r (some m)).map
          (fun p => readCell p.1 t) = .ok (readCell s t)) ∧
      s.length ≠ r) ∧
    ((_sort_graph_ref s r il ol sort_nodes).2 = s.length ∧
      readCell (_sort_graph_ref s r il ol sort_nodes).1 s.length =
        _sort_graph (readCell s r) il ol sort_nodes ∧
      (∀ t, t < s.length →
        readCell (_sort_graph_ref s r il ol sort_nodes).1 t = readCell s t)) := by
  have hne : s.length ≠ r := fun h => Nat.lt_irrefl r (h ▸ hr)
  constructor
  · simp only [List.mem_cons, List.not_mem_nil, or_false] at hm
    rcases hm with rfl | rfl | rfl | rfl | rfl | rfl
    · have hres : _transform_ref np_log np_log10 ptr s r (some "log") =
          .ok (s ++ [maskedApply np_log (readCell s r)], s.length) := by
        have e1 : _transform_ref np_log np_log10 ptr s r (some "log") =
            .ok (writeCell (s ++ [readCell s r]) s.length
              (maskedApply np_log (readCell (s ++ [readCell s r]) s.length)),
                s.length) := rfl
        rw [e1, readCell_append_self, writeCell_append_length]
      rw [hres]
      exact ⟨rfl, by simp [Except.map, readCell_append_self]; rfl,
        fun t ht => by simp [Except.map, readCell_append_lt s _ t ht], hne⟩
    · have hres : _transform_ref np_log np_log10 ptr s r (some "log10") =
          .ok (s ++ [maskedApply np_log10 (readCell s r)], s.length) := by
        have e1 : _transform_ref np_log np_log10 ptr s r (some "log10") =
            .ok (writeCell (s ++ [readCell s r]) s.length
              (maskedApply np_log10 (readCell (s ++ [readCell s r]) s.length)),
                s.length) := rfl
        rw [e1, readCell_append_self, writeCell_append_length]
      rw [hres]
      exact ⟨rfl, by simp [Except.map, readCell_append_self]; rfl,
        fun t ht => by simp [Except.map, readCell_append_lt s _ t ht], hne⟩
    · have hres : _transform_ref np_log np_log10 ptr s r (some "zero-boost") =
          .ok (s ++ [ptr "zero-boost" (readCell s r)], s.length) := rfl
      rw [hres]
      exact ⟨rfl, by simp [Except.map, readCell_append_self]; rfl,
        fun t ht => by simp [Except.map, readCell_append_lt s _ t ht], hne⟩
    · have hres : _transform_ref np_log np_log10 ptr s r (some "simple-all") =
          .ok (s ++ [ptr "simple-all" (readCell s r)], s.length) := rfl
      rw [hres]
      exact ⟨rfl, by simp [Except.map, readCell_append_self]; rfl,
        fun t ht => by simp [Except.map, readCell_append_lt s _ t ht], hne⟩
    · have hres : _transform_ref np_log np_log10 ptr s r
            (some "simple-nonzero") =
          .ok (s ++ [ptr "simple-nonzero" (readCell s r)], s.length) := rfl
      rw [hres]
      exact ⟨rfl, by simp [Except.map, readCell_append_self]; rfl,
        fun t ht => by simp [Except.map, readCell_append_lt s _ t ht], hne⟩
    · have hres : _transform_ref np_log np_log10 ptr s r (some "binarize") =
          .ok (s ++ [binarizeMat (readCell s r)], s.length) := rfl
      rw [hres]
      exact ⟨rfl, by simp [Except.map, readCell_append_self]; rfl,
        fun t ht => by simp [Except.map, readCell_append_lt s _ t ht], hne⟩
  · exact ⟨rfl, readCell_append_self s _,
      fun t ht => readCell_append_lt s _ t ht⟩

/-- Witness for C8 at a concrete one-cell store, handle `0`, method `"log"`
and a concrete label pair. -/
theorem transform_and_sort_never_mutate_witness :
    ((_transform_ref logZ log10Z ptrZ [gW] 0 (some "log")).map (fun p => p.2) =
        .ok 1 ∧
      (_transform_ref logZ log10Z ptrZ [gW] 0 (some "log")).map
          (fun p => readCell p.1 1) =
        _transform logZ log10Z ptrZ (readCell [gW] 0) (some "log") ∧
      (∀ t, t < 1 →
        (_transform_ref logZ log10Z ptrZ [gW] 0 (some "log")).map
          (fun p => readCell p.1 t) = .ok (readCell [gW] t)) ∧
      (1 : ℕ) ≠ 0) ∧
    ((_sort_graph_ref [gW] 0 ilW olW false).2 = 1 ∧
      readCell (_sort_graph_ref [gW] 0 ilW olW false).1 1 =
        _sort_graph (readCell [gW] 0) ilW olW false ∧
      (∀ t, t < 1 →
        readCell (_sort_graph_ref [gW] 0 ilW olW false).1 t =
          readCell [gW] t)) :=
  transform_and_sort_never_mutate logZ log10Z ptrZ [gW] 0 (by decide) "log"
    (by decide) ilW olW false

/-! ### Constant labels sort to the identity (`_process_graphs`) -/

theorem key4_const (c c₂ : α) (i j : Fin n) :
    key4 (fun _ : Fin n => c) (fun _ : Fin n => c₂) i =
      key4 (fun _ : Fin n => c) (fun _ : Fin n => c₂) j := rfl

theorem sort_inds_const_labels [NeZero n] (g : Mat W n) (c c₂ : α) :
    _sort_inds g (fun _ => c) (fun _ => c₂) false = List.finRange n := by
  simp only [_sort_inds, Bool.false_eq_true, reduceIte]
  exact insertionSortKey_eq_finRange _
    (fun i j _ => le_of_eq (key4_const c c₂ i j))

theorem sortPerm_const_labels [NeZero n] (g : Mat W n) (c c₂ : α) (i : Fin n) :
    sortPerm g (fun _ => c) (fun _ => c₂) false i = i := by
  unfold sortPerm
  rw [sort_inds_const_labels g c c₂]
  have hlen : i.val < (List.finRange n).length := by
    rw [List.length_finRange]; exact i.isLt
  rw [List.getD_eq_getElem _ _ hlen]
  simp

theorem sort_graph_const_labels [NeZero n] (g : Mat W n) (c c₂ : α) :
    _sort_graph g (fun _ => c) (fun _ => c₂) false = g := by
  funext i j
  unfold _sort_graph reindexMat
  rw [sortPerm_const_labels g c c₂ i, sortPerm_const_labels g c c₂ j]

/-- C9: with `inner_hier_labels = None` and `sort_nodes = False`,
`_process_graphs` synthesizes constant all-ones label vectors, the stable sort
is the identity, and each output graph equals its transformed input; the value
of `outer_hier_labels` only passes through the length check and has no effect
on the output matrices. -/
theorem process_graphs_none_inner_identity {W : Type} [LinearOrderedCommRing W]
    {α : Type} [LinearOrder α] [One α] {n : ℕ} [NeZero n]
    (np_log np_log10 : W → W) (ptr : String → Mat W n → Mat W n)
    (graphs : List (Mat W n)) (outer : Option (List α))
    (method : Option String) :
    _process_graphs np_log np_log10 ptr graphs (none : Option (List α)) outer
        method false =
      if checkLabelLen n outer then
        graphs.mapM (fun g => _transform np_log np_log10 ptr g method)
      else
        .error "Found input variables with inconsistent numbers of samples" := by
  unfold _process_graphs
  have h1 : checkLabelLen n (none : Option (List α)) = true := rfl
  rw [h1, Bool.true_and]
  cases ho : checkLabelLen n outer
  · simp
  · simp only [if_true]
    cases hmap : graphs.mapM (fun g => _transform np_log np_log10 ptr g method) with
    | error e => rfl
    | ok gs =>
      have hsort : (fun g : Mat W n =>
          _sort_graph g (fun _ => (1 : ℤ)) (fun _ => (1 : ℤ)) false) =
            fun g => g :=
        funext (fun g => sort_graph_const_labels g 1 1)
      rw [hsort]
      simp

/-- Witness for C9 at a concrete graph list, outer labels and method. -/
theorem process_graphs_none_inner_identity_witness :
    _process_graphs logZ log10Z ptrZ [gW] (none : Option (List ℤ))
        (some [9, 9, 9]) (some "log") false =
      if checkLabelLen 3 (some ([9, 9, 9] : List ℤ)) then
        [gW].mapM (fun g => _transform logZ log10Z ptrZ g (some "log"))
      else
        .error "Found input variables with inconsistent numbers of samples" :=
  process_graphs_none_inner_identity logZ log10Z ptrZ [gW] (some [9, 9, 9])
    (some "log")

/-! ### `degreeplot` on isolated nodes (`_distplot` branch selection) -/

theorem catData_nil_of_not_mem {β : Type} :
    ∀ (ls : List α) (data : List β) (c : α), c ∉ ls →
      catData data ls c = [] := by
  intro ls
  induction ls with
  | nil => intro data c _; cases data <;> rfl
  | cons a t ih =>
    intro data c h
    cases data with
    | nil => rfl
    | cons b dd =>
      have hne : a ≠ c := fun he => h (he ▸ List.mem_cons_self a t)
      show ((a, b) :: t.zip dd).filterMap
          (fun p => if p.1 = c then some p.2 else none) = []
      rw [List.filterMap_cons]
      simp only [hne, if_false, reduceIte]
      exact ih dd c (fun hm => h (List.mem_cons_of_mem a hm))

theorem catData_singleton {β : Type} :
    ∀ (ls : List α) (data : List β) (k : ℕ) (c : α) (d : β),
      ls.length = data.length → ls[k]? = some c → ls.count c = 1 →
      data[k]? = some d → catData data ls c = [d] := by
  intro ls
  induction ls with
  | nil => intro data k c d _ hg; simp at hg
  | cons a t ih =>
    intro data k c d hlen hg hc hd
    cases data with
    | nil => simp at hlen
    | cons b dd =>
      cases k with
      | zero =>
        have hca : a = c := by simpa using hg
        have hdb : b = d := by simpa using hd
        subst hca
        subst hdb
        have ht0 : t.count a = 0 := by
          have hcc := hc
          rw [List.count_cons] at hcc
          simp at hcc
          omega
        have hnm : a ∉ t := List.count_eq_zero.mp ht0
        have h0 : List.filterMap (fun p => if p.1 = a then some p.2 else none)
            (t.zip dd) = [] := catData_nil_of_not_mem t dd a hnm
        show ((a, b) :: t.zip dd).filterMap
            (fun p => if p.1 = a then some p.2 else none) = [b]
        simp [List.filterMap_cons, h0]
      | succ k =>
        have hgt : t[k]? = some c := by simpa using hg
        have hdt : dd[k]? = some d := by simpa using hd
        have hmem : c ∈ t := List.getElem?_mem hgt
        have hac : a ≠ c := by
          intro he
          subst he
          have h1 : 0 < t.count a := List.count_pos_iff.mpr hmem
          rw [List.count_cons] at hc
          simp at hc
          omega
        have hct : t.count c = 1 := by
          rw [List.count_cons] at hc
          have hba : (a == c) = false := by
            simpa using hac
          rw [hba] at hc
          simpa using hc
        show ((a, b) :: t.zip dd).filterMap
            (fun p => if p.1 = c then some p.2 else none) = [d]
        rw [List.filterMap_cons]
        simp only [hac, if_false, reduceIte]
        exact ih dd k c d (by simpa using hlen) hgt hct hdt

theorem degreesOf_length (X : Mat W n) (direction : String) :
    (degreesOf X direction).length = n := by
  by_cases h : direction = "out" <;> simp [degreesOf, h]

theorem degrees_isolated_out (X : Mat W n) (i : Fin n)
    (hiso : ∀ j, X i j = 0 ∧ X j i = 0) :
    (degreesOf X "out")[i.val]? = some 0 := by
  have hcol : countNonzeroCol X i = 0 := by
    unfold countNonzeroCol
    rw [List.countP_eq_zero]
    intro a ha
    rcases List.mem_map.mp ha with ⟨j, _, rfl⟩
    simp [(hiso j).2]
  have hdg : (degreesOf X "out") = (List.finRange n).map (countNonzeroCol X) := rfl
  rw [hdg, List.getElem?_map]
  rw [List.getElem?_eq_getElem (by simpa using i.isLt)]
  simp [hcol]

theorem degrees_isolated_in (X : Mat W n) (i : Fin n)
    (hiso : ∀ j, X i j = 0 ∧ X j i = 0) :
    (degreesOf X "in")[i.val]? = some 0 := by
  have hrow : countNonzeroRow X i = 0 := by
    unfold countNonzeroRow
    rw [List.countP_eq_zero]
    intro a ha
    rcases List.mem_map.mp ha with ⟨j, _, rfl⟩
    simp [(hiso j).1]
  have hdg : (degreesOf X "in") = (List.finRange n).map (countNonzeroRow X) := rfl
  rw [hdg, List.getElem?_map]
  rw [List.getElem?_eq_getElem (by simpa using i.isLt)]
  simp [hrow]

/-- C10 counterexample: the graph `gW` has an isolated node (node 0, all-zero
row and column) and `degreeplot` completes, but with no labels and other nodes
of nonzero degree the degree data `[0,1,1]` is not all-equal, so `_distplot`
takes the curve branch: the output contains no axvline at all — the isolated
node does not fall in a single-point bucket handled by the singleton-value
branch. -/
theorem degreeplot_isolated_counterexample :
    (∀ j : Fin 3, gW 0 j = 0 ∧ gW j 0 = 0) ∧
      degreesOf gW "out" = [0, 1, 1] ∧
      degreeplot gW (none : Option (List ℤ)) "out" =
        .ok [DrawCmd.curve [0, 1, 1]] :=
  ⟨by decide, by decide, by decide⟩

/-- C10 amended: for every graph with an isolated node `i` (all-zero row and
column), `degreeplot` computes degree 0 for `i` in both directions; and when
labels are supplied that give node `i` a label category of size one, the
singleton-value branch of the underlying distribution plot handles that
category, drawing an axvline at 0 (not a curve), and `degreeplot` completes
with the drawing commands of `_distplot`. -/
theorem degreeplot_isolated_singleton_branch {W : Type} [LinearOrderedCommRing W]
    {α : Type} [LinearOrder α] {n : ℕ} (X : Mat W n) (i : Fin n)
    (hiso : ∀ j, X i j = 0 ∧ X j i = 0) (ls : List α) (c : α)
    (hlen : ls.length = n) (hget : ls[i.val]? = some c)
    (hcount : ls.count c = 1) :
    (degreesOf X "out")[i.val]? = some 0 ∧
      (degreesOf X "in")[i.val]? = some 0 ∧
      DrawCmd.vline 0 ∈ _distplot (degreesOf X "out") (some ls) 0 ∧
      degreeplot X (some ls) "out" =
        .ok (_distplot (degreesOf X "out") (some ls) 0) := by
  have hout := degrees_isolated_out X i hiso
  have hin := degrees_isolated_in X i hiso
  refine ⟨hout, hin, ?_, rfl⟩
  have hcd : catData (degreesOf X "out") ls c = [0] :=
    catData_singleton ls (degreesOf X "out") i.val c 0
      (hlen.trans (degreesOf_length X "out").symm) hget hcount hout
  have hcmem : c ∈ np_unique_vals ls := by
    unfold np_unique_vals
    rw [List.mem_insertionSort, List.mem_dedup]
    exact List.getElem?_mem hget
  show DrawCmd.vline 0 ∈ (np_unique_vals ls).map _
  refine List.mem_map.mpr ⟨c, hcmem, ?_⟩
  have hcond : ¬(1 < ls.count c ∧
      ((catData (degreesOf X "out") ls c).min?).getD 0 ≠
        ((catData (degreesOf X "out") ls c).max?).getD 0) := by
    rw [hcount]
    simp
  rw [if_neg hcond, hcd]
  rfl

/-- Witness for the amended C10 at the concrete graph `gW` (node 0 isolated),
labels `[10, 20, 20]` and the singleton category `10`. -/
theorem degreeplot_isolated_singleton_branch_witness :
    (degreesOf gW "out")[(0 : Fin 3).val]? = some 0 ∧
      (degreesOf gW "in")[(0 : Fin 3).val]? = some 0 ∧
      DrawCmd.vline 0 ∈ _distplot (degreesOf gW "out") (some lsW) 0 ∧
      degreeplot gW (some lsW) "out" =
        .ok (_distplot (degreesOf gW "out") (some lsW) 0) :=
  degreeplot_isolated_singleton_branch gW 0 (by decide) lsW 10 (by decide)
    (by decide) (by decide)

end Graspologic
